import Mathlib

/-!
Verification of the backup-manager retention and sync engines.

The Lean definitions below are a shallow embedding of the Python sources:

* `core/backup_manager.py` — retention engine (`_matches_rule`,
  `_should_delete`, `_delete_path`, `_process_folder`, `_check_schedule`);
* `core/sync_manager.py` — sync engine (`_matches_pattern`, the S3-key
  construction in `_sync_rule`, `_rotate_folder_versions`);
* `core/s3_manager.py` — `normalize_endpoint`.

Conventions of the embedding:

* Paths and file names are `String`s; a folder's depth-1 listing is a
  `List Entry` (name, file/dir flag, optional mtime in epoch seconds,
  `none` modelling a raised `OSError` from `stat()`).
* Wall-clock instants are integers (epoch seconds).  The source compares
  `timedelta.total_seconds()/60` (a float) against a threshold in minutes;
  the embedding uses the exact integer form (seconds against 60·minutes)
  and the equivalence with the rational division form is proved as a
  theorem rather than assumed.
* Python's `re` module is modelled by Mathlib's `RegularExpression Char`:
  a compiled pattern is `Option (RegularExpression Char)` where `none`
  models a pattern whose compilation raises `re.error`.  `re.fullmatch`
  is whole-string matching (`rmatch`), `re.match` is matching of some
  prefix of the string.  (Python's `\d` also admits non-ASCII Unicode
  digits; timestamps produced by `strftime` are ASCII, and the digit
  class below is the ASCII one.)
* `fnmatch.fnmatch` is modelled by POSIX glob semantics over `*`, `?`
  and literal characters (the patterns appearing in the claims use no
  character classes, and on POSIX `normcase` is the identity).
* External effects (the `send2trash` facility, `unlink`/`rmtree`,
  S3 deletes) are parametrised by an `Env` of availability/failure flags;
  the filesystem is the list of currently existing paths.
-/

/-! ## Python `re` model -/

/-- Digit class `\d` (ASCII), as a regular expression `0|1|…|9`. -/
def digitRe : RegularExpression Char :=
  RegularExpression.char '0' + RegularExpression.char '1' + RegularExpression.char '2' +
  RegularExpression.char '3' + RegularExpression.char '4' + RegularExpression.char '5' +
  RegularExpression.char '6' + RegularExpression.char '7' + RegularExpression.char '8' +
  RegularExpression.char '9'

/-- The regular expression `\d+`, i.e. one digit followed by arbitrarily many. -/
def digitPlusRe : RegularExpression Char := digitRe * digitRe.star

/-- Model of `re.fullmatch(pattern, s)`: the entire string is in the
pattern's language. -/
def pyFullmatch (r : RegularExpression Char) (s : String) : Bool :=
  r.rmatch s.toList

/-- Helper for `re.match`: does some prefix of the character list belong to
the language of `r`?  Recurses along the string through Brzozowski
derivatives. -/
def pyMatchAux : RegularExpression Char → List Char → Bool
  | r, [] => r.rmatch []
  | r, c :: cs => r.rmatch [] || pyMatchAux (r.deriv c) cs

/-- Model of `re.match(pattern, s)`: some prefix of the string is in the
pattern's language (anchored at the start only). -/
def pyMatch (r : RegularExpression Char) (s : String) : Bool :=
  pyMatchAux r s.toList

theorem pyMatchAux_iff (r : RegularExpression Char) (s : List Char) :
    pyMatchAux r s = true ↔ ∃ p q, s = p ++ q ∧ r.rmatch p = true := by
  induction s generalizing r with
  | nil =>
    simp only [pyMatchAux]
    constructor
    · intro h; exact ⟨[], [], rfl, h⟩
    · rintro ⟨p, q, hpq, hm⟩
      have hp : p = [] := by
        cases p with
        | nil => rfl
        | cons a t => simp at hpq
      subst hp; exact hm
  | cons c cs ih =>
    simp only [pyMatchAux, Bool.or_eq_true]
    constructor
    · rintro (h | h)
      · exact ⟨[], c :: cs, rfl, h⟩
      · obtain ⟨p, q, hpq, hm⟩ := (ih (r.deriv c)).mp h
        exact ⟨c :: p, q, by simp [hpq], hm⟩
    · rintro ⟨p, q, hpq, hm⟩
      cases p with
      | nil =>
        left; exact hm
      | cons a t =>
        right
        have hac : a = c := by
          have := congrArg (fun l => l.head?) hpq
          simpa using this.symm
        have hts : cs = t ++ q := by
          have := congrArg List.tail hpq
          simpa using this
        refine (ih (r.deriv c)).mpr ⟨t, q, hts, ?_⟩
        subst hac
        exact hm

/-- Prefix-matching characterised through Mathlib's regex language. -/
theorem pyMatch_iff (r : RegularExpression Char) (s : String) :
    pyMatch r s = true ↔ ∃ p q, s.toList = p ++ q ∧ p ∈ r.matches' := by
  unfold pyMatch
  rw [pyMatchAux_iff]
  constructor
  · rintro ⟨p, q, h, hm⟩
    exact ⟨p, q, h, (RegularExpression.rmatch_iff_matches' r p).mp hm⟩
  · rintro ⟨p, q, h, hm⟩
    exact ⟨p, q, h, (RegularExpression.rmatch_iff_matches' r p).mpr hm⟩

/-! ## `fnmatch` (shell glob) model

`fnmatch.fnmatch(name, pat)` on POSIX: `*` matches any run of characters,
`?` any single character, other characters match themselves. -/

def globMatchL : List Char → List Char → Bool
  | [], s => s.isEmpty
  | '*' :: ps, s => s.tails.any (fun t => globMatchL ps t)
  | '?' :: ps, s =>
    match s with
    | [] => false
    | _ :: t => globMatchL ps t
  | p :: ps, s =>
    match s with
    | [] => false
    | c :: t => (p == c) && globMatchL ps t

/-- Model of `fnmatch.fnmatch(filename, pattern)`. -/
def fnmatchB (filename pattern : String) : Bool :=
  globMatchL pattern.toList filename.toList

/-! ## Python string comparison

Python compares strings lexicographically by code point; `sorted(keys,
reverse=True)` orders by this relation descending.  `lexLt` is that strict
order on the underlying character lists. -/

def lexLt : List Char → List Char → Bool
  | [], [] => false
  | [], _ :: _ => true
  | _ :: _, [] => false
  | a :: as, b :: bs => if a < b then true else if b < a then false else lexLt as bs

theorem lexLt_irrefl (l : List Char) : lexLt l l = false := by
  induction l with
  | nil => rfl
  | cons a as ih => simp [lexLt, ih]

theorem lexLt_trans {a b c : List Char} (h1 : lexLt a b = true)
    (h2 : lexLt b c = true) : lexLt a c = true := by
  induction a generalizing b c with
  | nil =>
    cases b with
    | nil => exact absurd h1 (by simp [lexLt])
    | cons y ys =>
      cases c with
      | nil => exact absurd h2 (by simp [lexLt])
      | cons z zs => simp [lexLt]
  | cons x xs ih =>
    cases b with
    | nil => exact absurd h1 (by simp [lexLt])
    | cons y ys =>
      cases c with
      | nil => exact absurd h2 (by simp [lexLt])
      | cons z zs =>
        simp only [lexLt] at h1 h2 ⊢
        rcases lt_trichotomy x y with hxy | hxy | hxy
        · rcases lt_trichotomy y z with hyz | hyz | hyz
          · simp [lt_trans hxy hyz]
          · subst hyz; simp [hxy]
          · simp only [if_pos hxy] at h1
            simp only [if_neg (asymm hyz), if_pos hyz] at h2
            exact absurd h2 (by simp)
        · subst hxy
          simp only [lt_irrefl, if_neg (lt_irrefl x)] at h1
          rcases lt_trichotomy x z with hxz | hxz | hxz
          · simp [hxz]
          · subst hxz
            simp only [lt_irrefl, if_neg (lt_irrefl x)] at h2 ⊢
            exact ih h1 h2
          · simp only [if_neg (asymm hxz), if_pos hxz] at h2
            exact absurd h2 (by simp)
        · simp only [if_neg (asymm hxy), if_pos hxy] at h1
          exact absurd h1 (by simp)

theorem lexLt_trichotomy (a b : List Char) :
    lexLt a b = true ∨ a = b ∨ lexLt b a = true := by
  induction a generalizing b with
  | nil =>
    cases b with
    | nil => exact Or.inr (Or.inl rfl)
    | cons y ys => exact Or.inl (by simp [lexLt])
  | cons x xs ih =>
    cases b with
    | nil => exact Or.inr (Or.inr (by simp [lexLt]))
    | cons y ys =>
      rcases lt_trichotomy x y with hxy | hxy | hxy
      · exact Or.inl (by simp [lexLt, hxy])
      · subst hxy
        rcases ih ys with h | h | h
        · exact Or.inl (by simp [lexLt, h])
        · exact Or.inr (Or.inl (by rw [h]))
        · exact Or.inr (Or.inr (by simp [lexLt, h]))
      · exact Or.inr (Or.inr (by simp [lexLt, hxy]))

/-- Descending order relation on version-timestamp strings, as used by
`sorted(versions.keys(), reverse=True)`:  `a` may precede `b` iff `a` is
not smaller than `b`. -/
def tsDesc (a b : String) : Prop := lexLt a.toList b.toList = false

instance : DecidableRel tsDesc := fun a b =>
  inferInstanceAs (Decidable (lexLt a.toList b.toList = false))

instance : IsTotal String tsDesc := by
  constructor
  intro a b
  unfold tsDesc
  cases hab : lexLt a.toList b.toList with
  | false => exact Or.inl rfl
  | true =>
    right
    cases hba : lexLt b.toList a.toList with
    | false => rfl
    | true => exact absurd (lexLt_trans hab hba) (by simp [lexLt_irrefl])

instance : IsTrans String tsDesc := by
  constructor
  intro a b c h1 h2
  unfold tsDesc at h1 h2 ⊢
  cases hac : lexLt a.toList c.toList with
  | false => rfl
  | true =>
    exfalso
    rcases lexLt_trichotomy b.toList a.toList with h | h | h
    · rcases lexLt_trichotomy c.toList b.toList with h' | h' | h'
      · exact absurd (lexLt_trans hac (lexLt_trans h' h)) (by simp [lexLt_irrefl])
      · rw [h'] at hac; rw [h1] at hac; exact Bool.noConfusion hac
      · rw [h2] at h'; exact Bool.noConfusion h'
    · rw [h] at h2; rw [h2] at hac; exact Bool.noConfusion hac
    · rw [h1] at h; exact Bool.noConfusion h

/-! ## Retention engine data model (`core/backup_manager.py`) -/

/-- A rule's pattern: the configured pattern string together with the model
of its `re` compilation (`none` when compiling it raises `re.error`).  The
wildcard branch of the matchers uses the raw string; the regex branch uses
the compiled form. -/
structure PatternSpec where
  raw : String
  compiled : Option (RegularExpression Char)

/-- A retention rule, as read from the configuration dictionary.  Fields
modelled with `Option` are dictionary keys that may be absent
(`max_age_days` legacy key; absent `max_age_minutes` defaults to 43200). -/
structure Rule where
  name : String
  pattern : PatternSpec
  pattern_type : String
  max_age_days : Option Int
  max_age_minutes : Option Int
  keep_latest : Nat
  permanent_delete : Bool

/-- One depth-1 entry of a watched folder, as produced by
`folder.iterdir()` filtered to files and directories.  `mtime` is
`st_mtime` in epoch seconds; `none` models `stat()` raising. -/
structure Entry where
  name : String
  isFile : Bool
  mtime : Option Int

/-- The result dictionary of `_process_folder` / `scan_and_clean`. -/
structure Results where
  deleted : List String
  errors : List String
  total_scanned : Nat

/-- Behaviour of the external world during deletion: whether `send2trash`
is importable, and which paths make `send2trash` / `unlink`-`rmtree`
raise. -/
structure Env where
  send2trash_available : Bool
  trash_raises : String → Bool
  remove_raises : String → Bool

/-- Model of `BackupManager._matches_rule`: `regex` pattern type uses
`re.fullmatch` on the file name (invalid regex → `False`); any other
pattern type uses `fnmatch.fnmatch`. -/
def matches_rule (rule : Rule) (filename : String) : Bool :=
  if rule.pattern_type = "regex" then
    match rule.pattern.compiled with
    | none => false
    | some r => pyFullmatch r filename
  else
    fnmatchB filename rule.pattern.raw

/-- Effective age threshold in minutes: the legacy `max_age_days` key takes
precedence (×24×60); otherwise `max_age_minutes` with default 43200. -/
def effective_max_age_minutes (rule : Rule) : Int :=
  match rule.max_age_days with
  | some d => d * 24 * 60
  | none => rule.max_age_minutes.getD 43200

/-- Model of `BackupManager._should_delete`.  The source computes
`file_age.total_seconds() / 60 >= max_age_minutes`; over exact arithmetic
this equals the integer comparison used here (proved in
`should_delete_iff_age_minutes`).  A failing `stat()` (mtime `none`)
yields `False`. -/
def should_delete (now : Int) (rule : Rule) (mtime : Option Int) : Bool :=
  match mtime with
  | none => false
  | some m => decide (60 * effective_max_age_minutes rule ≤ now - m)

/-- Fidelity of the integer form: the Boolean equals the source's
`(now − mtime) in minutes ≥ threshold` comparison done in rational
arithmetic. -/
theorem should_delete_iff_age_minutes (now m : Int) (rule : Rule) :
    should_delete now rule (some m) = true ↔
      ((now - m : ℚ)) / 60 ≥ (effective_max_age_minutes rule : ℚ) := by
  unfold should_delete
  rw [decide_eq_true_iff]
  rw [ge_iff_le, le_div_iff₀ (by norm_num : (0:ℚ) < 60)]
  rw [show (effective_max_age_minutes rule : ℚ) * 60 =
        ((60 * effective_max_age_minutes rule : Int) : ℚ) by push_cast; ring]
  constructor
  · intro h
    exact_mod_cast h
  · intro h
    exact_mod_cast h

/-- Model of `BackupManager._delete_path`.  Returns the filesystem (list of
existing paths) and the updated results.  A non-existing path is a silent
no-op.  With `permanent_delete` the file/tree is removed (or an error
recorded when the OS call raises).  Without it, a missing trash facility
or a raising trash call leaves the filesystem untouched and records an
error; only a successful `send2trash` removes the path.  (The source
appends Russian log strings interpolating the path and, for the trash
failure, the exception text; the embedding keeps the path-bearing prefix
of each string.) -/
def delete_path (env : Env) (fs : List String) (path : String) (isDir : Bool)
    (permanent : Bool) (res : Results) : List String × Results :=
  if path ∈ fs then
    if permanent then
      if env.remove_raises path then
        (fs, { res with errors := res.errors ++
          [(if isDir then "Ошибка удаления папки " else "Ошибка удаления ") ++ path] })
      else
        (fs.erase path, { res with deleted := res.deleted ++
          [path ++ (if isDir then " (папка, навсегда)" else " (навсегда)")] })
    else
      if env.send2trash_available = false then
        (fs, { res with errors := res.errors ++
          ["ОШИБКА: send2trash не установлен! Файл НЕ удалён: " ++ path] })
      else if env.trash_raises path then
        (fs, { res with errors := res.errors ++
          ["ОШИБКА: Не удалось удалить в корзину " ++ path] })
      else
        (fs.erase path, { res with deleted := res.deleted ++
          [path ++ (if isDir then " (папка, в корзину)" else " (файл, в корзину)")] })
  else
    (fs, res)

/-! ## `_process_folder` -/

/-- Number of paths the per-rule loop counts into `total_scanned`: the
depth-1 entries not yet claimed by an earlier rule that are files. -/
def rule_scanned (claimed : List String) (entries : List Entry) : Nat :=
  (entries.filter (fun e => decide (e.name ∉ claimed) && e.isFile)).length

/-- The `matching_objects` list collected for one rule: unclaimed entries
whose name matches the pattern and which are expired, paired with their
mtime.  (`should_delete` is `False` on a failing `stat`, so entries with
no mtime are never collected, matching the source's `continue` on a
raising `stat()`.) -/
def rule_candidates (now : Int) (claimed : List String) (entries : List Entry)
    (rule : Rule) : List (String × Int) :=
  (entries.filter (fun e =>
      decide (e.name ∉ claimed) && matches_rule rule e.name &&
        should_delete now rule e.mtime)).map
    (fun e => (e.name, e.mtime.getD 0))

/-- Sort key used on `matching_objects`: descending by modification time
(`sort(key=λx. x[1], reverse=True)`). -/
def mtimeDesc (a b : String × Int) : Prop := b.2 ≤ a.2

instance : DecidableRel mtimeDesc := fun a b =>
  inferInstanceAs (Decidable (b.2 ≤ a.2))

instance : IsTotal (String × Int) mtimeDesc := ⟨fun a b => le_total b.2 a.2⟩

instance : IsTrans (String × Int) mtimeDesc :=
  ⟨fun _ _ _ h1 h2 => le_trans h2 h1⟩

/-- Ascending counterpart, used when `keep_latest == 0`. -/
def mtimeAsc (a b : String × Int) : Prop := a.2 ≤ b.2

instance : DecidableRel mtimeAsc := fun a b =>
  inferInstanceAs (Decidable (a.2 ≤ b.2))

/-- The keep/delete split of one rule's `matching_objects`:  with
`keep_latest > 0` and a non-empty list, sort descending by mtime, spare
the first `keep_latest`, delete the rest; with `keep_latest == 0` delete
everything (sorted ascending); with `keep_latest > 0` and no matches,
nothing happens. -/
def select_to_delete (keepLatest : Nat) (matching : List (String × Int)) :
    List (String × Int) × List (String × Int) :=
  if 0 < keepLatest ∧ matching ≠ [] then
    let sorted := List.insertionSort mtimeDesc matching
    (sorted.take keepLatest, sorted.drop keepLatest)
  else if keepLatest = 0 then
    ([], List.insertionSort mtimeAsc matching)
  else
    ([], [])

/-- Whether the live `is_dir()` check inside `_delete_path` holds for a
path, looked up from the folder listing. -/
def entry_is_dir (entries : List Entry) (path : String) : Bool :=
  match entries.find? (fun e => e.name == path) with
  | some e => !e.isFile
  | none => false

/-- State threaded through `_process_folder`: the existing paths, the
`processed_paths` set (represented as a list) and the accumulated
results. -/
structure PState where
  fs : List String
  claimed : List String
  res : Results

/-- The deletion loop at the end of one rule's processing: each scheduled
path is added to `processed_paths` and then passed to `_delete_path`. -/
def run_deletes (env : Env) (entries : List Entry) (permanent : Bool) :
    List (String × Int) → List String → List String → Results →
      List String × List String × Results
  | [], fs, claimed, res => (fs, claimed, res)
  | (p, _) :: rest, fs, claimed, res =>
    let step := delete_path env fs p (entry_is_dir entries p) permanent res
    run_deletes env entries permanent rest step.1 (claimed ++ [p]) step.2

/-- Processing of one rule inside `_process_folder`: count unclaimed files
into `total_scanned`, collect `matching_objects`, split into keep/delete,
claim the kept paths, then run the deletion loop.  (The progress-task
bookkeeping of the source — `_create_task`, `_update_task_progress`,
`_complete_task` — only feeds the GUI and never changes `deleted`,
`errors`, `total_scanned`, the claim set or the filesystem; it is omitted
here.) -/
def process_rule (env : Env) (now : Int) (entries : List Entry)
    (st : PState) (rule : Rule) : PState :=
  let scanned := rule_scanned st.claimed entries
  let matching := rule_candidates now st.claimed entries rule
  let split := select_to_delete rule.keep_latest matching
  let claimed1 := st.claimed ++ split.1.map Prod.fst
  let res1 := { st.res with total_scanned := st.res.total_scanned + scanned }
  let out := run_deletes env entries rule.permanent_delete split.2 st.fs claimed1 res1
  ⟨out.1, out.2.1, out.2.2⟩

/-- Model of `BackupManager._process_folder` for one folder, given its
depth-1 listing and the rules already filtered to the applicable ones
(the source's `applicable_rules`); rules are folded in list order.
Returns the final state; its `.res` field is the returned results
dictionary. -/
def process_folder (env : Env) (now : Int) (entries : List Entry)
    (rules : List Rule) : PState :=
  rules.foldl (process_rule env now entries)
    ⟨entries.map Entry.name, [], ⟨[], [], 0⟩⟩

/-! ## Schedule gate (`BackupManager._check_schedule`) -/

/-- Strip leading and trailing whitespace, as Python's `str.strip()`. -/
def stripL (l : List Char) : List Char :=
  ((l.dropWhile Char.isWhitespace).reverse.dropWhile Char.isWhitespace).reverse

def digitsValAux : List Char → Nat → Option Nat
  | [], acc => some acc
  | c :: cs, acc =>
    if c.isDigit then digitsValAux cs (acc * 10 + (c.toNat - '0'.toNat)) else none

/-- Value of a non-empty all-digit character run. -/
def digitsVal : List Char → Option Nat
  | [] => none
  | l => digitsValAux l 0

/-- Model of Python's `int(s)`: surrounding whitespace is stripped, an
optional sign precedes a non-empty digit run.  (Python additionally
accepts underscore group separators and non-ASCII digits; not modelled,
none of the configuration values at issue use them.) -/
def pyIntL (l : List Char) : Option Int :=
  match stripL l with
  | '-' :: ds => (digitsVal ds).map (fun n => -(n : Int))
  | '+' :: ds => (digitsVal ds).map (fun n => (n : Int))
  | ds => (digitsVal ds).map (fun n => (n : Int))

def pyInt (s : String) : Option Int := pyIntL s.toList

/-- Python `str.split(":")` on the character list. -/
def splitOnColon : List Char → List (List Char)
  | [] => [[]]
  | c :: t =>
    let r := splitOnColon t
    if c = ':' then [] :: r
    else
      match r with
      | [] => [[c]]
      | h :: rest => (c :: h) :: rest

/-- Model of `schedule_hour, schedule_minute = map(int, s.split(":"))`:
succeeds iff the split has exactly two parts and both parse as ints
(otherwise `ValueError`, caught by the source). -/
def parse_time_hm (s : String) : Option (Int × Int) :=
  match splitOnColon s.toList with
  | [h, m] =>
    match pyIntL h, pyIntL m with
    | some hh, some mm => some (hh, mm)
    | _, _ => none
  | _ => none

/-- One entry of the `schedules` configuration list. -/
structure Schedule where
  days : List Nat
  time : String
deriving DecidableEq

/-- Now formatted as `%H:%M`, for the malformed-time fallback comparison. -/
def pad2 (n : Nat) : String :=
  if n < 10 then "0" ++ toString n else toString n

def formatHHMM (secOfDay : Int) : String :=
  pad2 (secOfDay.toNat / 3600) ++ ":" ++ pad2 (secOfDay.toNat % 3600 / 60)

/-- Whether one schedule entry makes the gate due.  `nowWeekday` is
`datetime.weekday()` (0 = Monday), `nowSec` the seconds elapsed since
today's midnight, and `ivalSec` the check interval in seconds (the source
passes `check_interval_minutes = ivalSec / 60`).  The source's test
`abs((now - schedule_datetime).total_seconds() / 60) <= interval_minutes/2`
is the exact integer comparison `2·|Δseconds| ≤ ivalSec` used here
(equivalence proved in `entry_due_iff_minutes`).  If the two `int(...)`
calls or the `datetime(...)` construction raise (`ValueError`), the source
falls back to comparing `now.strftime("%H:%M")` with the raw string. -/
def entry_due (ivalSec : Int) (nowWeekday : Nat) (nowSec : Int)
    (e : Schedule) : Bool :=
  if nowWeekday ∈ e.days then
    match parse_time_hm e.time with
    | some (h, m) =>
      if 0 ≤ h ∧ h ≤ 23 ∧ 0 ≤ m ∧ m ≤ 59 then
        decide (2 * |nowSec - (h * 3600 + m * 60)| ≤ ivalSec)
      else
        formatHHMM nowSec == e.time
    | none => formatHHMM nowSec == e.time
  else false

/-- Fidelity of the integer form of the tolerance test: it equals the
source's `|Δ| in minutes ≤ (interval minutes) / 2` in exact rational
arithmetic. -/
theorem entry_due_tolerance_iff (ivalSec d : Int) :
    (2 * |d| ≤ ivalSec) ↔
      (|(d : ℚ)| / 60 ≤ ((ivalSec : ℚ) / 60) / 2) := by
  constructor
  · intro h
    have h' : ((2 * |d| : Int) : ℚ) ≤ ((ivalSec : Int) : ℚ) := by exact_mod_cast h
    push_cast at h'
    linarith
  · intro h
    have h' : ((2 * |d| : Int) : ℚ) ≤ ((ivalSec : Int) : ℚ) := by push_cast; linarith
    exact_mod_cast h'

/-- The scheduling-related part of the configuration map. -/
structure GateConfig where
  schedule_enabled : Bool
  schedules : List Schedule

/-- Model of `BackupManager._check_schedule`:  always due when scheduling
is disabled or no schedules are configured; otherwise due iff some entry
matches (the source returns `True` on the first matching entry of the
loop, `False` after it). -/
def check_schedule (cfg : GateConfig) (ivalSec : Int) (nowWeekday : Nat)
    (nowSec : Int) : Bool :=
  if cfg.schedule_enabled = false then true
  else if cfg.schedules = [] then true
  else cfg.schedules.any (entry_due ivalSec nowWeekday nowSec)

/-! ## Sync engine (`core/sync_manager.py`) -/

/-- Model of `SyncManager._matches_pattern`:  the literal pattern `"*"`
matches anything before the type dispatch; `regex` uses `re.match`
(anchored at the start, NOT a full match; invalid regex → `False`);
otherwise `fnmatch`. -/
def matches_pattern (pattern : String)
    (compiled : Option (RegularExpression Char)) (pattern_type : String)
    (filename : String) : Bool :=
  if pattern = "*" then true
  else if pattern_type = "regex" then
    match compiled with
    | none => false
    | some r => pyMatch r filename
  else
    fnmatchB filename pattern

/-- Python `str.replace("\\", "/")`: every backslash becomes a forward
slash. -/
def replace_backslash (s : String) : String :=
  String.mk (s.toList.map (fun c => if c = '\\' then '/' else c))

/-- The S3 key built in `SyncManager._sync_rule`: with versioning,
`f"{folder.name}_{timestamp}/{relative_path}"`, otherwise
`f"{folder.name}/{relative_path}"`, in both cases with `"\\"` replaced by
`"/"`. -/
def build_key (folderName relativePath timestamp : String)
    (versioningEnabled : Bool) : String :=
  if versioningEnabled then
    replace_backslash (folderName ++ "_" ++ timestamp ++ "/" ++ relativePath)
  else
    replace_backslash (folderName ++ "/" ++ relativePath)

/-- ASCII digit test (the `\d` of the rotation regex; see the header note
on non-ASCII digits). -/
def isAsciiDigit (c : Char) : Bool := '0' ≤ c && c ≤ '9'

/-- Fixed-shape matcher: format character `d` demands an ASCII digit, any
other format character demands itself; both lists must have equal
length. -/
def matchShape : List Char → List Char → Bool
  | [], [] => true
  | f :: fs, c :: cs =>
    (if f = 'd' then isAsciiDigit c else f == c) && matchShape fs cs
  | _, _ => false

/-- Shape of the version timestamp `\d{4}-\d{2}-\d{2}_\d{2}-\d{2}`. -/
def tsFormat : List Char := "dddd-dd-dd_dd-dd".toList

/-- Character-list core of the rotation regex
`^{re.escape(folder_name)}_(\d{4}-\d{2}-\d{2}_\d{2}-\d{2})/` applied with
`.match` (anchored at the start): the key must start with the literal
folder name and `_`, followed by a 16-character timestamp of the right
shape, followed by `/`; the captured group (the timestamp) is returned. -/
def extract_version_l (folder key : List Char) : Option (List Char) :=
  let pre := folder ++ ['_']
  if pre.isPrefixOf key then
    let rest := key.drop pre.length
    let ts := rest.take 16
    if matchShape tsFormat ts then
      match rest.drop 16 with
      | '/' :: _ => some ts
      | _ => none
    else none
  else none

def extract_version (folderName key : String) : Option String :=
  (extract_version_l folderName.toList key.toList).map String.mk

/-! ### `datetime.strptime(ts, "%Y-%m-%d_%H-%M")` and age in days -/

def digitVal (c : Char) : Nat := c.toNat - '0'.toNat

def isLeap (y : Int) : Bool :=
  (y % 4 == 0 && y % 100 != 0) || y % 400 == 0

def daysInMonth (y : Int) (m : Nat) : Nat :=
  if m = 2 then (if isLeap y then 29 else 28)
  else if m = 4 ∨ m = 6 ∨ m = 9 ∨ m = 11 then 30
  else 31

/-- Days between 1970-01-01 and y-m-d in the proleptic Gregorian calendar
(the civil-from-days algorithm used by every datetime library). -/
def days_from_civil (y : Int) (m d : Nat) : Int :=
  let y' : Int := if m ≤ 2 then y - 1 else y
  let era : Int := Int.fdiv y' 400
  let yoe : Int := y' - era * 400
  let mp : Int := (m : Int) + (if 2 < m then -3 else 9)
  let doy : Int := Int.fdiv (153 * mp + 2) 5 + (d : Int) - 1
  let doe : Int := yoe * 365 + Int.fdiv yoe 4 - Int.fdiv yoe 100 + doy
  era * 146097 + doe - 719468

/-- Model of `datetime.strptime(ts, "%Y-%m-%d_%H-%M")` (then tagged UTC),
as an epoch-seconds value.  `none` models the `ValueError` the source
catches: wrong shape, or out-of-range month/day/hour/minute/year. -/
def parse_ts (s : String) : Option Int :=
  match s.toList with
  | [y1, y2, y3, y4, a1, mo1, mo2, a2, d1, d2, a3, h1, h2, a4, n1, n2] =>
    if (isAsciiDigit y1 && isAsciiDigit y2 && isAsciiDigit y3 && isAsciiDigit y4 &&
        isAsciiDigit mo1 && isAsciiDigit mo2 && isAsciiDigit d1 && isAsciiDigit d2 &&
        isAsciiDigit h1 && isAsciiDigit h2 && isAsciiDigit n1 && isAsciiDigit n2 &&
        a1 == '-' && a2 == '-' && a3 == '_' && a4 == '-') then
      let y : Int := ((1000 * digitVal y1 + 100 * digitVal y2 +
        10 * digitVal y3 + digitVal y4 : Nat) : Int)
      let mo : Nat := 10 * digitVal mo1 + digitVal mo2
      let d : Nat := 10 * digitVal d1 + digitVal d2
      let h : Nat := 10 * digitVal h1 + digitVal h2
      let mi : Nat := 10 * digitVal n1 + digitVal n2
      if 1 ≤ y ∧ 1 ≤ mo ∧ mo ≤ 12 ∧ 1 ≤ d ∧ d ≤ daysInMonth y mo ∧
          h ≤ 23 ∧ mi ≤ 59 then
        some (days_from_civil y mo d * 86400 + (h : Int) * 3600 + (mi : Int) * 60)
      else none
    else none
  | _ => none

/-! ### `_rotate_folder_versions` -/

/-- First-occurrence deduplication, as accumulating keys of an (ordered)
Python dict does. -/
def dedup_first_aux : List String → List String → List String
  | [], _ => []
  | x :: xs, seen =>
    if x ∈ seen then dedup_first_aux xs seen
    else x :: dedup_first_aux xs (x :: seen)

def dedup_first (l : List String) : List String := dedup_first_aux l []

/-- The per-version decision of the rotation loop, for the version at
0-indexed position `i` of the descending-sorted timestamp list:  marked
when the count rule applies (`max_versions > 0` and `i ≥ max_versions`),
else — only when not already marked — when the age rule applies
(`max_version_age_days > 0`, the timestamp parses, and
`(now - version_date).days > max_version_age_days`, where `.days` is the
floor of the difference in seconds over 86400). -/
def version_selected (maxVersions maxAgeDays now : Int) (i : Nat)
    (ts : String) : Bool :=
  if 0 < maxVersions ∧ maxVersions ≤ (i : Int) then true
  else if 0 < maxAgeDays then
    match parse_ts ts with
    | some sec => decide (maxAgeDays < Int.fdiv (now - sec) 86400)
    | none => false
  else false

/-- The `for i, timestamp_str in enumerate(sorted_versions)` walk,
collecting the selected timestamps in order. -/
def select_go (maxVersions maxAgeDays now : Int) :
    Nat → List String → List String
  | _, [] => []
  | i, ts :: rest =>
    (if version_selected maxVersions maxAgeDays now i ts then [ts] else []) ++
      select_go maxVersions maxAgeDays now (i + 1) rest

/-- Model of `SyncManager._rotate_folder_versions`, returning the keys the
rotation issues `delete_s3_object` calls for, in order.  `objects` is the
bucket listing (keys).  No-op when neither limit is set, when the listing
is empty, or when no key matches the version pattern.  Otherwise the
distinct extracted timestamps are sorted descending and walked with
`version_selected`; every object of each selected version is deleted
individually. -/
def rotate_folder_versions (maxVersions maxAgeDays now : Int)
    (folderName : String) (objects : List String) : List String :=
  if maxVersions = 0 ∧ maxAgeDays = 0 then []
  else if objects = [] then []
  else
    let tsList := dedup_first (objects.filterMap (extract_version folderName))
    if tsList = [] then []
    else
      let sortedTs := List.insertionSort tsDesc tsList
      (select_go maxVersions maxAgeDays now 0 sortedTs).flatMap
        (fun ts => objects.filter (fun k => decide (extract_version folderName k = some ts)))

/-! ## `normalize_endpoint` (`core/s3_manager.py`) -/

/-- Substring test, as Python's `needle in haystack`. -/
def containsSubL (needle : List Char) : List Char → Bool
  | [] => needle.isPrefixOf []
  | c :: t => needle.isPrefixOf (c :: t) || containsSubL needle t

def containsSub (needle hay : String) : Bool :=
  containsSubL needle.toList hay.toList

/-- Model of `normalize_endpoint`.  Follows the source line by line: empty
or whitespace-only input yields `""`; an endpoint carrying a protocol is
protocol-corrected when `":443"` (resp. `":80"`) occurs in the part after
the protocol while the protocol is `http` (resp. `https`), otherwise
returned unchanged; a bare endpoint gets `https` when `":443"` occurs in
it, `http` when `":80"` occurs, `http` when any other colon occurs, and
`https` when it has no colon at all. -/
def normalize_endpoint (endpoint : String) : String :=
  if endpoint = "" then ""
  else
    let e := String.mk (stripL endpoint.toList)
    if e = "" then ""
    else
      let hasHttp := "http://".toList.isPrefixOf e.toList
      let hasHttps := "https://".toList.isPrefixOf e.toList
      if hasHttp || hasHttps then
        let rest := if hasHttps then e.toList.drop 8 else e.toList.drop 7
        if containsSubL ":443".toList rest && hasHttp then
          "https://" ++ String.mk rest
        else if containsSubL ":80".toList rest && hasHttps then
          "http://" ++ String.mk rest
        else e
      else
        if containsSub ":443" e then "https://" ++ e
        else if containsSub ":80" e then "http://" ++ e
        else if containsSub ":" e then "http://" ++ e
        else "https://" ++ e

/-! ## Concrete fixtures used by witnesses and counterexamples -/

/-- Environment where everything succeeds. -/
def envAllOk : Env := ⟨true, fun _ => false, fun _ => false⟩

/-- Environment where the `send2trash` import failed. -/
def envNoTrash : Env := ⟨false, fun _ => false, fun _ => false⟩

/-- A trash-requesting rule (`permanent_delete = False`). -/
def ruleTrashReq : Rule := ⟨"trash-rule", ⟨"*", none⟩, "wildcard", none, none, 0, false⟩

/-- A regex rule compiled from the pattern string `\d+`. -/
def ruleRegexW : Rule := ⟨"digits", ⟨"\\d+", some digitPlusRe⟩, "regex", none, some 0, 0, true⟩

/-- A legacy rule carrying `max_age_days = 2` (and a conflicting
`max_age_minutes` that must be ignored). -/
def ruleLegacyW : Rule := ⟨"legacy", ⟨"*", none⟩, "wildcard", some 2, some 7, 0, true⟩

/-- Rule R1 of the first-claim-wins scenario: pattern `*.bak`,
`keep_latest = 1`. -/
def ruleBakW : Rule := ⟨"R1", ⟨"*.bak", none⟩, "wildcard", none, some 0, 1, true⟩

/-- Rule R2 of the first-claim-wins scenario: pattern `*`,
`keep_latest = 0`. -/
def ruleAllW : Rule := ⟨"R2", ⟨"*", none⟩, "wildcard", none, some 0, 0, true⟩

/-- Two rules whose pattern matches none of the fixture files. -/
def ruleNoMatch1 : Rule := ⟨"N1", ⟨"*.zzz", none⟩, "wildcard", none, some 0, 0, true⟩

def ruleNoMatch2 : Rule := ⟨"N2", ⟨"*.yyy", none⟩, "wildcard", none, some 0, 0, true⟩

/-- Three expired `.bak` files with distinct modification times. -/
def entries3 : List Entry :=
  [⟨"a.bak", true, some 60⟩, ⟨"b.bak", true, some 120⟩, ⟨"c.bak", true, some 180⟩]

/-- Five versioned objects of folder `db`. -/
def objs5 : List String :=
  ["db_2026-01-01_00-00/f", "db_2026-01-02_00-00/f", "db_2026-01-03_00-00/f",
   "db_2026-01-04_00-00/f", "db_2026-01-05_00-00/f"]

/-- A schedule configuration: Mondays at 14:30, scheduling enabled. -/
def gateCfgW : GateConfig := ⟨true, [⟨[0], "14:30"⟩]⟩

/-! ## Claim theorems -/

/-- C1: for every path and every rule with `permanent_delete = false`, if
the trash facility is unavailable or the trash operation itself throws,
`_delete_path` leaves the filesystem unchanged (the path is never
permanently deleted as a fallback), records nothing in `deleted`, and
appends exactly one error entry. -/
theorem trash_unavailable_leaves_file_untouched
    (env : Env) (fs : List String) (path : String) (isDir : Bool)
    (rule : Rule) (res : Results)
    (hperm : rule.permanent_delete = false)
    (hmem : path ∈ fs)
    (hfail : env.send2trash_available = false ∨ env.trash_raises path = true) :
    (delete_path env fs path isDir rule.permanent_delete res).1 = fs ∧
    (delete_path env fs path isDir rule.permanent_delete res).2.deleted = res.deleted ∧
    ∃ msg, (delete_path env fs path isDir rule.permanent_delete res).2.errors
        = res.errors ++ [msg] := by
  rw [hperm]
  unfold delete_path
  rcases hfail with h | h
  · exact ⟨by simp [hmem, h], by simp [hmem, h],
      "ОШИБКА: send2trash не установлен! Файл НЕ удалён: " ++ path, by simp [hmem, h]⟩
  · rcases hsa : env.send2trash_available with _ | _
    · exact ⟨by simp [hmem, hsa], by simp [hmem, hsa],
        "ОШИБКА: send2trash не установлен! Файл НЕ удалён: " ++ path, by simp [hmem, hsa]⟩
    · exact ⟨by simp [hmem, hsa, h], by simp [hmem, hsa, h],
        "ОШИБКА: Не удалось удалить в корзину " ++ path, by simp [hmem, hsa, h]⟩

/-- Witness for C1 at a concrete input: trash facility absent. -/
theorem trash_unavailable_leaves_file_untouched_witness :
    (delete_path envNoTrash ["f.bak"] "f.bak" false ruleTrashReq.permanent_delete
        ⟨[], [], 0⟩).1 = ["f.bak"] ∧
    (delete_path envNoTrash ["f.bak"] "f.bak" false ruleTrashReq.permanent_delete
        ⟨[], [], 0⟩).2.deleted = ([] : List String) ∧
    ∃ msg, (delete_path envNoTrash ["f.bak"] "f.bak" false ruleTrashReq.permanent_delete
        ⟨[], [], 0⟩).2.errors = ([] : List String) ++ [msg] :=
  trash_unavailable_leaves_file_untouched envNoTrash ["f.bak"] "f.bak" false
    ruleTrashReq ⟨[], [], 0⟩ rfl (by decide) (Or.inl rfl)

/-- C2 counterexample: the claim demands that the sync engine's matcher,
too, return true only on a full regex match of the file name — but
`SyncManager._matches_pattern` uses `re.match`, which is satisfied by a
prefix: with pattern `\d+` and filename `123.txt`, the sync matcher
returns `True` although the regex does not match the entire filename. -/
theorem sync_regex_prefix_counterexample :
    matches_pattern "\\d+" (some digitPlusRe) "regex" "123.txt" = true ∧
    pyFullmatch digitPlusRe "123.txt" = false := by
  constructor
  · decide
  · decide

/-- C2 (amended): the retention matcher (`BackupManager._matches_rule`)
requires a full-string regex match of the filename and yields false on an
invalid regex; the sync matcher (`SyncManager._matches_pattern`) instead
only requires the regex to match a PREFIX of the filename (`re.match`),
also yielding false on an invalid regex, and returns true unconditionally
for the literal pattern string `"*"`. -/
theorem regex_matching_semantics :
    (∀ (rule : Rule) (r : RegularExpression Char) (fn : String),
        rule.pattern_type = "regex" → rule.pattern.compiled = some r →
        (matches_rule rule fn = true ↔ fn.toList ∈ r.matches')) ∧
    (∀ (rule : Rule) (fn : String),
        rule.pattern_type = "regex" → rule.pattern.compiled = none →
        matches_rule rule fn = false) ∧
    (∀ (pat : String) (r : RegularExpression Char) (fn : String),
        pat ≠ "*" →
        (matches_pattern pat (some r) "regex" fn = true ↔
          ∃ p q, fn.toList = p ++ q ∧ p ∈ r.matches')) ∧
    (∀ (pat fn : String), pat ≠ "*" →
        matches_pattern pat none "regex" fn = false) ∧
    (∀ (c : Option (RegularExpression Char)) (t fn : String),
        matches_pattern "*" c t fn = true) := by
  refine ⟨?_, ?_, ?_, ?_, ?_⟩
  · intro rule r fn ht hc
    unfold matches_rule
    rw [if_pos ht, hc]
    exact RegularExpression.rmatch_iff_matches' r fn.toList
  · intro rule fn ht hc
    unfold matches_rule
    rw [if_pos ht, hc]
  · intro pat r fn hp
    unfold matches_pattern
    rw [if_neg hp, if_pos rfl]
    exact pyMatch_iff r fn
  · intro pat fn hp
    unfold matches_pattern
    rw [if_neg hp, if_pos rfl]
  · intro c t fn
    unfold matches_pattern
    rw [if_pos rfl]

/-- Witness for C2 (amended) at a concrete input: the retention matcher
accepts `123` against `\d+` as a full match. -/
theorem regex_matching_semantics_witness :
    matches_rule ruleRegexW "123" = true :=
  (regex_matching_semantics.1 ruleRegexW digitPlusRe "123" rfl rfl).mpr
    ((RegularExpression.rmatch_iff_matches' digitPlusRe "123".toList).mp (by decide))

/-- C7: the expiry test is true iff the file's age in minutes is at least
the rule's threshold (inclusive boundary: exactly `max_age_minutes` old is
expired, one minute younger is not); a present legacy `max_age_days` key
takes precedence with threshold `max_age_days × 1440`; a failing `stat()`
yields false. -/
theorem expiry_test_semantics :
    (∀ (now m : Int) (rule : Rule),
        should_delete now rule (some m) = true ↔
          ((now - m : ℚ)) / 60 ≥ (effective_max_age_minutes rule : ℚ)) ∧
    (∀ (rule : Rule) (d : Int), rule.max_age_days = some d →
        effective_max_age_minutes rule = d * 1440) ∧
    (∀ (rule : Rule), rule.max_age_days = none →
        effective_max_age_minutes rule = rule.max_age_minutes.getD 43200) ∧
    (∀ (now : Int) (rule : Rule), should_delete now rule none = false) ∧
    (∀ (now : Int) (rule : Rule),
        should_delete now rule (some (now - 60 * effective_max_age_minutes rule)) = true) ∧
    (∀ (now : Int) (rule : Rule),
        should_delete now rule (some (now - 60 * effective_max_age_minutes rule + 60)) = false) := by
  refine ⟨?_, ?_, ?_, ?_, ?_, ?_⟩
  · intro now m rule
    exact should_delete_iff_age_minutes now m rule
  · intro rule d hd
    unfold effective_max_age_minutes
    rw [hd]
    ring
  · intro rule hd
    unfold effective_max_age_minutes
    rw [hd]
  · intro now rule
    rfl
  · intro now rule
    unfold should_delete
    rw [decide_eq_true_iff]
    omega
  · intro now rule
    unfold should_delete
    rw [decide_eq_false_iff_not]
    omega

/-- Witness for C7 at a concrete input: the legacy day threshold takes
precedence and equals `2 × 1440` minutes. -/
theorem expiry_test_semantics_witness :
    effective_max_age_minutes ruleLegacyW = 2 * 1440 :=
  expiry_test_semantics.2.1 ruleLegacyW 2 rfl

/-- Per-entry characterisation of the schedule gate: an entry makes the
gate due iff today's weekday is in its day set and either the time string
parses to a valid hour/minute whose distance from now is within half the
check interval (stated here in the source's minutes arithmetic over ℚ), or
the parse/construction fails and the raw string equals now formatted as
`%H:%M`. -/
theorem entry_due_iff (ivalSec : Int) (wd : Nat) (sec : Int) (e : Schedule) :
    entry_due ivalSec wd sec e = true ↔
      wd ∈ e.days ∧
        ((∃ h m, parse_time_hm e.time = some (h, m) ∧
            (0 ≤ h ∧ h ≤ 23 ∧ 0 ≤ m ∧ m ≤ 59) ∧
            |((sec : ℚ)) - ((h * 3600 + m * 60 : Int) : ℚ)| / 60 ≤
              (((ivalSec : ℚ)) / 60) / 2) ∨
         ((∀ h m, parse_time_hm e.time = some (h, m) →
            ¬(0 ≤ h ∧ h ≤ 23 ∧ 0 ≤ m ∧ m ≤ 59)) ∧
           formatHHMM sec = e.time)) := by
  unfold entry_due
  by_cases hd : wd ∈ e.days
  · rw [if_pos hd]
    simp only [hd, true_and]
    cases hp : parse_time_hm e.time with
    | none =>
      simp only [hp]
      constructor
      · intro h
        exact Or.inr ⟨fun h m hsome => by exact absurd hsome (by simp), beq_iff_eq.mp h⟩
      · rintro (⟨h, m, hsome, _⟩ | ⟨_, hstr⟩)
        · exact absurd hsome (by simp)
        · exact beq_iff_eq.mpr hstr
    | some hm =>
      obtain ⟨h, m⟩ := hm
      simp only [hp]
      by_cases hr : 0 ≤ h ∧ h ≤ 23 ∧ 0 ≤ m ∧ m ≤ 59
      · rw [if_pos hr, decide_eq_true_iff]
        have htol := entry_due_tolerance_iff ivalSec (sec - (h * 3600 + m * 60))
        constructor
        · intro hle
          refine Or.inl ⟨h, m, rfl, hr, ?_⟩
          have := htol.mp hle
          rw [show ((sec - (h * 3600 + m * 60) : Int) : ℚ)
              = (sec : ℚ) - ((h * 3600 + m * 60 : Int) : ℚ) by push_cast; ring] at this
          exact this
        · rintro (⟨h', m', hsome, _, htl⟩ | ⟨hall, _⟩)
          · rw [Option.some_inj, Prod.mk.injEq] at hsome
            rcases hsome with ⟨h1, h2⟩
            subst h1
            subst h2
            refine htol.mpr ?_
            rw [show ((sec - (h * 3600 + m * 60) : Int) : ℚ)
                = (sec : ℚ) - ((h * 3600 + m * 60 : Int) : ℚ) by push_cast; ring]
            exact htl
          · exact absurd hr (hall h m rfl)
      · rw [if_neg hr]
        constructor
        · intro hstr
          refine Or.inr ⟨?_, beq_iff_eq.mp hstr⟩
          intro h' m' hsome
          rw [Option.some_inj, Prod.mk.injEq] at hsome
          rcases hsome with ⟨h1, h2⟩
          subst h1
          subst h2
          exact hr
        · rintro (⟨h', m', hsome, hrange, _⟩ | ⟨_, hstr⟩)
          · rw [Option.some_inj, Prod.mk.injEq] at hsome
            rcases hsome with ⟨h1, h2⟩
            subst h1
            subst h2
            exact absurd hrange hr
          · exact beq_iff_eq.mpr hstr
  · rw [if_neg hd]
    simp [hd]

/-- C8: the schedule gate is true iff scheduling is disabled, or the
schedule list is empty, or some entry has today's weekday in its day set
and the distance between now and that entry's `HH:MM` today is at most
half the check interval (in minutes); an entry whose time cannot be turned
into a valid today-timestamp falls back to exact string equality with now
formatted `%H:%M`; and with `schedule_enabled = false` the gate is true
regardless of all time and day inputs. -/
theorem schedule_gate_semantics :
    (∀ (cfg : GateConfig) (ivalSec : Int) (wd : Nat) (sec : Int),
        check_schedule cfg ivalSec wd sec = true ↔
          (cfg.schedule_enabled = false ∨ cfg.schedules = [] ∨
            ∃ e ∈ cfg.schedules, wd ∈ e.days ∧
              ((∃ h m, parse_time_hm e.time = some (h, m) ∧
                  (0 ≤ h ∧ h ≤ 23 ∧ 0 ≤ m ∧ m ≤ 59) ∧
                  |((sec : ℚ)) - ((h * 3600 + m * 60 : Int) : ℚ)| / 60 ≤
                    (((ivalSec : ℚ)) / 60) / 2) ∨
               ((∀ h m, parse_time_hm e.time = some (h, m) →
                  ¬(0 ≤ h ∧ h ≤ 23 ∧ 0 ≤ m ∧ m ≤ 59)) ∧
                 formatHHMM sec = e.time)))) ∧
    (∀ (schedules : List Schedule) (ivalSec : Int) (wd : Nat) (sec : Int),
        check_schedule ⟨false, schedules⟩ ivalSec wd sec = true) := by
  constructor
  · intro cfg ivalSec wd sec
    unfold check_schedule
    by_cases he : cfg.schedule_enabled = false
    · simp [he]
    · rw [if_neg he]
      by_cases hs : cfg.schedules = []
      · simp [hs, he]
      · rw [if_neg hs]
        rw [List.any_eq_true]
        constructor
        · rintro ⟨e, hmem, hdue⟩
          exact Or.inr (Or.inr ⟨e, hmem, (entry_due_iff ivalSec wd sec e).mp hdue⟩)
        · rintro (h | h | ⟨e, hmem, hcond⟩)
          · exact absurd h he
          · exact absurd h hs
          · exact ⟨e, hmem, (entry_due_iff ivalSec wd sec e).mpr hcond⟩
  · intro schedules ivalSec wd sec
    rfl

/-- Witness for C8 at a concrete input: enabled gate, Monday 14:30 entry,
now = Monday 14:30:00, one-hour check interval. -/
theorem schedule_gate_semantics_witness :
    check_schedule gateCfgW 3600 0 52200 = true :=
  (schedule_gate_semantics.1 gateCfgW 3600 0 52200).mpr
    (Or.inr (Or.inr ⟨⟨[0], "14:30"⟩, by decide, by decide,
      Or.inl ⟨14, 30, by decide, by decide, by push_cast; norm_num⟩⟩))

/-! ### Substring lemmas for `normalize_endpoint` -/

theorem containsSubL_colon_of_not_mem (n : List Char) :
    ∀ l : List Char, ':' ∉ l → containsSubL (':' :: n) l = false := by
  intro l
  induction l with
  | nil => intro _; rfl
  | cons c t ih =>
    intro hl
    have hc : c ≠ ':' := fun h => hl (h ▸ List.mem_cons_self c t)
    have ht : ':' ∉ t := fun h => hl (List.mem_cons_of_mem c h)
    unfold containsSubL
    rw [ih ht]
    simp only [List.isPrefixOf, Bool.or_false]
    have : (':' == c) = false := by
      rw [beq_eq_false_iff_ne]
      exact fun h => hc h.symm
    rw [this]
    rfl

theorem containsSubL_colon_append (n : List Char) :
    ∀ host port : List Char, ':' ∉ host → ':' ∉ port →
      containsSubL (':' :: n) (host ++ ':' :: port) = n.isPrefixOf port := by
  intro host
  induction host with
  | nil =>
    intro port _ hp
    rw [List.nil_append]
    unfold containsSubL
    rw [containsSubL_colon_of_not_mem n port hp]
    simp [List.isPrefixOf]
  | cons c t ih =>
    intro port hh hp
    have hc : c ≠ ':' := fun h => hh (h ▸ List.mem_cons_self c t)
    have ht : ':' ∉ t := fun h => hh (List.mem_cons_of_mem c h)
    rw [List.cons_append]
    unfold containsSubL
    rw [ih port ht hp]
    simp only [List.isPrefixOf]
    have : (':' == c) = false := by
      rw [beq_eq_false_iff_ne]
      exact fun h => hc h.symm
    rw [this]
    rfl

theorem containsSubL_colon_mem :
    ∀ l : List Char, ':' ∈ l → containsSubL [':'] l = true := by
  intro l
  induction l with
  | nil => intro h; cases h
  | cons c t ih =>
    intro hl
    unfold containsSubL
    by_cases hc : c = ':'
    · subst hc
      simp [List.isPrefixOf]
    · have ht : ':' ∈ t := by
        cases hl with
        | head => exact absurd rfl hc
        | tail _ h => exact h
      rw [ih ht]
      simp

theorem isAsciiDigit_ne_colon {c : Char} (h : isAsciiDigit c = true) : c ≠ ':' := by
  intro hc
  rw [hc] at h
  exact absurd h (by decide)

/-- C9 counterexample: the claim promotes every bare `host:port` to
`https` unless the port is 80, but the source's final bare-endpoint branch
turns ANY other colon-carrying endpoint into `http`: a bare `host:9000`
becomes `http://host:9000`, not `https://host:9000`.  The claim also calls
a consistent protocol-bearing endpoint unchanged, but the port tests are
substring tests: `http://h:4430` carries `":443"` as a substring and is
rewritten to `https://h:4430` although its protocol/port pair is not a
mismatch. -/
theorem bare_endpoint_counterexample :
    (normalize_endpoint "host:9000" = "http://host:9000" ∧
      normalize_endpoint "host:9000" ≠ "https://host:9000") ∧
    (normalize_endpoint "http://h:4430" = "https://h:4430" ∧
      normalize_endpoint "http://h:4430" ≠ "http://h:4430") := by
  refine ⟨⟨?_, ?_⟩, ?_, ?_⟩
  · decide
  · decide
  · decide
  · decide

/-- C9 (amended): a bare `host:port` (no protocol, single colon, digit
port, no surrounding whitespace) is promoted to `https` exactly when the
port starts with `443` (so port 443 — and, by the substring test, also
e.g. 4430); EVERY other port, 80 included, yields `http`.  An endpoint
carrying protocol `http` is rewritten to `https` exactly when `":443"`
occurs as a substring of the part after the protocol, an `https` endpoint
is rewritten to `http` exactly when `":80"` occurs there, and a
protocol-bearing endpoint is returned unchanged otherwise. -/
theorem normalize_endpoint_semantics :
    (∀ host port : String, ':' ∉ host.toList →
      (∀ c ∈ port.toList, isAsciiDigit c = true) →
      stripL (host ++ ":" ++ port).toList = (host ++ ":" ++ port).toList →
      "http://".toList.isPrefixOf (host ++ ":" ++ port).toList = false →
      "https://".toList.isPrefixOf (host ++ ":" ++ port).toList = false →
      normalize_endpoint (host ++ ":" ++ port) =
        (if "443".toList.isPrefixOf port.toList then "https://" else "http://")
          ++ (host ++ ":" ++ port)) ∧
    (∀ r : String, stripL ("http://" ++ r).toList = ("http://" ++ r).toList →
      normalize_endpoint ("http://" ++ r) =
        if containsSub ":443" r then "https://" ++ r else "http://" ++ r) ∧
    (∀ r : String, stripL ("https://" ++ r).toList = ("https://" ++ r).toList →
      normalize_endpoint ("https://" ++ r) =
        if containsSub ":80" r then "http://" ++ r else "https://" ++ r) := by
  refine ⟨?_, ?_, ?_⟩
  · intro host port hcolon hdigits hws hnh hns
    have hport : ':' ∉ port.toList := fun h =>
      isAsciiDigit_ne_colon (hdigits ':' h) rfl
    have he : (host ++ ":" ++ port).toList = host.toList ++ ':' :: port.toList := by
      show (host ++ ":" ++ port).data = host.data ++ ':' :: port.data
      rw [String.data_append, String.data_append]
      simp
    have hne0 : (host ++ ":" ++ port) ≠ "" := by
      intro h
      have h2 := congrArg String.toList h
      rw [he] at h2
      rcases List.append_eq_nil.mp h2 with ⟨_, h3⟩
      exact List.noConfusion h3
    unfold normalize_endpoint
    rw [if_neg hne0]
    have hmk : String.mk (stripL (host ++ ":" ++ port).toList) = host ++ ":" ++ port := by
      rw [hws]
      rfl
    rw [hmk]
    rw [if_neg hne0]
    rw [hnh, hns]
    simp only [Bool.or_false]
    rw [if_neg (by simp : ¬(false = true))]
    have h443 : containsSub ":443" (host ++ ":" ++ port) =
        "443".toList.isPrefixOf port.toList := by
      unfold containsSub
      rw [he]
      exact containsSubL_colon_append "443".toList host.toList port.toList hcolon hport
    have h80 : containsSub ":80" (host ++ ":" ++ port) =
        "80".toList.isPrefixOf port.toList := by
      unfold containsSub
      rw [he]
      exact containsSubL_colon_append "80".toList host.toList port.toList hcolon hport
    have hc : containsSub ":" (host ++ ":" ++ port) = true := by
      unfold containsSub
      rw [he]
      exact containsSubL_colon_mem _ (by simp)
    rw [h443, h80, hc]
    cases hp443 : "443".toList.isPrefixOf port.toList with
    | true => simp
    | false =>
      rw [if_neg (by simp)]
      cases hp80 : "80".toList.isPrefixOf port.toList with
      | true => simp
      | false =>
        rw [if_neg (by simp), if_pos rfl]
        simp
  · intro r hws
    have hlist : ("http://" ++ r).toList
        = 'h' :: 't' :: 't' :: 'p' :: ':' :: '/' :: '/' :: r.toList := by
      rw [show ("http://" ++ r).toList = "http://".toList ++ r.toList from
        String.data_append _ _]
      rfl
    have hne0 : ("http://" ++ r) ≠ "" := by
      intro h
      have h2 := congrArg String.toList h
      rw [hlist] at h2
      simp at h2
    have hhp : "http://".toList.isPrefixOf ("http://" ++ r).toList = true := by
      rw [hlist]
      simp [List.isPrefixOf]
    have hhs : "https://".toList.isPrefixOf ("http://" ++ r).toList = false := by
      rw [hlist]
      simp [List.isPrefixOf]
    unfold normalize_endpoint
    rw [if_neg hne0]
    have hmk : String.mk (stripL ("http://" ++ r).toList) = "http://" ++ r := by
      rw [hws]
      rfl
    rw [hmk]
    rw [if_neg hne0]
    rw [hhp, hhs]
    rw [if_pos (show (true || false) = true from rfl)]
    rw [show (if (false = true) then List.drop 8 ("http://" ++ r).toList
        else List.drop 7 ("http://" ++ r).toList) = r.toList by
      rw [if_neg (by simp)]
      rw [hlist]
      simp]
    simp only [Bool.and_true, Bool.and_false]
    rw [if_neg (by simp : ¬(false = true))]
    by_cases hc : containsSub ":443" r = true
    · have hc2 : containsSubL ":443".toList r.toList = true := hc
      rw [if_pos hc2, if_pos hc]
      rfl
    · have hc2 : ¬(containsSubL ":443".toList r.toList = true) := hc
      rw [if_neg hc2, if_neg hc]
  · intro r hws
    have hlist : ("https://" ++ r).toList
        = 'h' :: 't' :: 't' :: 'p' :: 's' :: ':' :: '/' :: '/' :: r.toList := by
      rw [show ("https://" ++ r).toList = "https://".toList ++ r.toList from
        String.data_append _ _]
      rfl
    have hne0 : ("https://" ++ r) ≠ "" := by
      intro h
      have h2 := congrArg String.toList h
      rw [hlist] at h2
      simp at h2
    have hhp : "http://".toList.isPrefixOf ("https://" ++ r).toList = false := by
      rw [hlist]
      simp [List.isPrefixOf]
    have hhs : "https://".toList.isPrefixOf ("https://" ++ r).toList = true := by
      rw [hlist]
      simp [List.isPrefixOf]
    unfold normalize_endpoint
    rw [if_neg hne0]
    have hmk : String.mk (stripL ("https://" ++ r).toList) = "https://" ++ r := by
      rw [hws]
      rfl
    rw [hmk]
    rw [if_neg hne0]
    rw [hhp, hhs]
    rw [if_pos (show (false || true) = true from rfl)]
    rw [show (if (true = true) then List.drop 8 ("https://" ++ r).toList
        else List.drop 7 ("https://" ++ r).toList) = r.toList by
      rw [if_pos rfl]
      rw [hlist]
      simp]
    simp only [Bool.and_true, Bool.and_false]
    rw [if_neg (by simp : ¬(false = true))]
    by_cases hc : containsSub ":80" r = true
    · have hc2 : containsSubL ":80".toList r.toList = true := hc
      rw [if_pos hc2, if_pos hc]
      rfl
    · have hc2 : ¬(containsSubL ":80".toList r.toList = true) := hc
      rw [if_neg hc2, if_neg hc]

/-- Witness for C9 (amended) at concrete inputs: bare `minio.local:9000`
gets `http`, and `http://h:4430` is rewritten by the `":443"` substring
test. -/
theorem normalize_endpoint_semantics_witness :
    normalize_endpoint ("minio.local" ++ ":" ++ "9000") =
      (if "443".toList.isPrefixOf "9000".toList then "https://" else "http://")
        ++ ("minio.local" ++ ":" ++ "9000") ∧
    normalize_endpoint ("http://" ++ "h:4430") =
      (if containsSub ":443" "h:4430" then "https://" ++ "h:4430"
        else "http://" ++ "h:4430") :=
  ⟨normalize_endpoint_semantics.1 "minio.local" "9000" (by decide) (by decide)
      (by decide) (by decide) (by decide),
   normalize_endpoint_semantics.2.1 "h:4430" (by decide)⟩

/-! ### Lemmas about `_process_folder` -/

theorem delete_path_benign (env : Env) (fs : List String) (p : String)
    (d perm : Bool) (res : Results)
    (henv : env.send2trash_available = true ∧ (∀ q, env.trash_raises q = false) ∧
      (∀ q, env.remove_raises q = false))
    (hp : p ∈ fs) :
    (delete_path env fs p d perm res).1 = fs.erase p ∧
    (delete_path env fs p d perm res).2.deleted.length = res.deleted.length + 1 ∧
    (delete_path env fs p d perm res).2.errors = res.errors ∧
    (delete_path env fs p d perm res).2.total_scanned = res.total_scanned := by
  obtain ⟨h1, h2, h3⟩ := henv
  unfold delete_path
  cases perm with
  | true => refine ⟨?_, ?_, ?_, ?_⟩ <;> simp [hp, h3 p]
  | false => refine ⟨?_, ?_, ?_, ?_⟩ <;> simp [hp, h1, h2 p]

theorem delete_path_total_scanned (env : Env) (fs : List String) (p : String)
    (d perm : Bool) (res : Results) :
    (delete_path env fs p d perm res).2.total_scanned = res.total_scanned := by
  unfold delete_path
  split
  · split
    · split <;> rfl
    · split
      · rfl
      · split <;> rfl
  · rfl

theorem run_deletes_total_scanned (env : Env) (entries : List Entry) (perm : Bool) :
    ∀ (del : List (String × Int)) (fs claimed : List String) (res : Results),
      (run_deletes env entries perm del fs claimed res).2.2.total_scanned =
        res.total_scanned := by
  intro del
  induction del with
  | nil => intro fs claimed res; rfl
  | cons pt rest ih =>
    intro fs claimed res
    obtain ⟨p, t⟩ := pt
    unfold run_deletes
    rw [ih]
    exact delete_path_total_scanned env fs p (entry_is_dir entries p) perm res

theorem run_deletes_claimed (env : Env) (entries : List Entry) (perm : Bool) :
    ∀ (del : List (String × Int)) (fs claimed : List String) (res : Results),
      (run_deletes env entries perm del fs claimed res).2.1 =
        claimed ++ del.map Prod.fst := by
  intro del
  induction del with
  | nil => intro fs claimed res; simp [run_deletes]
  | cons pt rest ih =>
    intro fs claimed res
    obtain ⟨p, t⟩ := pt
    unfold run_deletes
    rw [ih]
    simp

theorem run_deletes_deleted_count (env : Env) (entries : List Entry) (perm : Bool)
    (henv : env.send2trash_available = true ∧ (∀ q, env.trash_raises q = false) ∧
      (∀ q, env.remove_raises q = false)) :
    ∀ (del : List (String × Int)) (fs claimed : List String) (res : Results),
      (del.map Prod.fst).Nodup → (∀ p ∈ del.map Prod.fst, p ∈ fs) →
      (run_deletes env entries perm del fs claimed res).2.2.deleted.length =
        res.deleted.length + del.length := by
  intro del
  induction del with
  | nil => intro fs claimed res _ _; rfl
  | cons pt rest ih =>
    intro fs claimed res hnd hmem
    obtain ⟨p, t⟩ := pt
    have hp : p ∈ fs := hmem p (by simp)
    obtain ⟨hfs, hdel, herr, _⟩ :=
      delete_path_benign env fs p (entry_is_dir entries p) perm res henv hp
    unfold run_deletes
    rw [ih _ _ _ ?_ ?_]
    · rw [hdel]
      simp [Nat.add_assoc, Nat.add_comm 1]
    · exact (List.nodup_cons.mp (by simpa using hnd)).2
    · intro q hq
      have hqfs : q ∈ fs := hmem q (by simp [hq])
      have hqp : q ≠ p := by
        intro h
        subst h
        exact (List.nodup_cons.mp (by simpa using hnd)).1 hq
      rw [hfs]
      exact (List.mem_erase_of_ne hqp).mpr hqfs

theorem rule_candidates_map_fst_sublist (now : Int) (claimed : List String)
    (entries : List Entry) (rule : Rule) :
    ((rule_candidates now claimed entries rule).map Prod.fst).Sublist
      (entries.map Entry.name) := by
  unfold rule_candidates
  rw [List.map_map]
  exact List.Sublist.map _ (List.filter_sublist entries)

theorem rule_candidates_excludes_claimed (now : Int) (claimed : List String)
    (entries : List Entry) (rule : Rule) (p : String) (hp : p ∈ claimed) :
    p ∉ (rule_candidates now claimed entries rule).map Prod.fst := by
  intro hmem
  unfold rule_candidates at hmem
  rw [List.map_map] at hmem
  obtain ⟨e, he, hname⟩ := List.mem_map.mp hmem
  have := List.of_mem_filter he
  simp only [Bool.and_eq_true, decide_eq_true_eq] at this
  exact this.1.1 (by rw [show e.name = p from hname]; exact hp)

theorem select_to_delete_spec (k : Nat) (m : List (String × Int))
    (hk : k ≤ m.length)
    (hdist : m.Pairwise (fun a b => a.2 ≠ b.2)) :
    (select_to_delete k m).1.length = min k m.length ∧
    (select_to_delete k m).2.length = m.length - min k m.length ∧
    ((select_to_delete k m).1 ++ (select_to_delete k m).2).Perm m ∧
    (∀ a ∈ (select_to_delete k m).1, ∀ b ∈ (select_to_delete k m).2, b.2 < a.2) := by
  unfold select_to_delete
  by_cases h1 : 0 < k ∧ m ≠ []
  · rw [if_pos h1]
    have hperm := List.perm_insertionSort mtimeDesc m
    have hsorted := List.sorted_insertionSort mtimeDesc m
    have hlen : (List.insertionSort mtimeDesc m).length = m.length := hperm.length_eq
    have hsplit := List.take_append_drop k (List.insertionSort mtimeDesc m)
    refine ⟨?_, ?_, ?_, ?_⟩
    · rw [List.length_take, hlen]
    · rw [List.length_drop, hlen]
      rw [Nat.min_eq_left hk]
    · rw [hsplit]
      exact hperm
    · have hpw : (List.insertionSort mtimeDesc m).Pairwise mtimeDesc := hsorted
      have hne : (List.insertionSort mtimeDesc m).Pairwise (fun a b => a.2 ≠ b.2) :=
        (hperm.pairwise_iff (fun h => h.symm)).mpr hdist
      rw [← hsplit] at hpw hne
      have hd := (List.pairwise_append.mp hpw).2.2
      have hd2 := (List.pairwise_append.mp hne).2.2
      intro a ha b hb
      exact lt_of_le_of_ne (hd a ha b hb) (fun h => hd2 a ha b hb h.symm)
  · rw [if_neg h1]
    have hk0 : k = 0 := by
      by_cases hm : m = []
      · subst hm
        simpa using hk
      · push_neg at h1
        rcases Nat.eq_zero_or_pos k with h | h
        · exact h
        · exact absurd (h1 h) hm
    rw [if_pos hk0]
    subst hk0
    have hperm := List.perm_insertionSort mtimeAsc m
    refine ⟨by simp, ?_, ?_, ?_⟩
    · simp [hperm.length_eq]
    · simpa using hperm
    · intro a ha
      simp at ha

/-- C3: for a set of N candidates matched by one rule and
`0 ≤ keep_latest = k ≤ N` (with pairwise distinct modification times and a
benign environment), the per-folder processing spares exactly
`min(k, N)` candidates and deletes exactly `N − min(k, N)`, the
spared/deleted lists together are exactly the candidate set, every spared
candidate is strictly newer than every deleted one (so the spared set is
precisely the k greatest modification times), and the folder run records
exactly that many deletions in its result. -/
theorem keep_latest_invariant (env : Env) (now : Int) (entries : List Entry)
    (rule : Rule)
    (hnodup : (entries.map Entry.name).Nodup)
    (henv : env.send2trash_available = true ∧ (∀ q, env.trash_raises q = false) ∧
      (∀ q, env.remove_raises q = false))
    (hdist : (rule_candidates now [] entries rule).Pairwise (fun a b => a.2 ≠ b.2))
    (hk : rule.keep_latest ≤ (rule_candidates now [] entries rule).length) :
    (select_to_delete rule.keep_latest (rule_candidates now [] entries rule)).1.length
      = min rule.keep_latest (rule_candidates now [] entries rule).length ∧
    (select_to_delete rule.keep_latest (rule_candidates now [] entries rule)).2.length
      = (rule_candidates now [] entries rule).length
        - min rule.keep_latest (rule_candidates now [] entries rule).length ∧
    ((select_to_delete rule.keep_latest (rule_candidates now [] entries rule)).1 ++
      (select_to_delete rule.keep_latest (rule_candidates now [] entries rule)).2).Perm
      (rule_candidates now [] entries rule) ∧
    (∀ a ∈ (select_to_delete rule.keep_latest (rule_candidates now [] entries rule)).1,
      ∀ b ∈ (select_to_delete rule.keep_latest (rule_candidates now [] entries rule)).2,
        b.2 < a.2) ∧
    (process_folder env now entries [rule]).res.deleted.length =
      (rule_candidates now [] entries rule).length
        - min rule.keep_latest (rule_candidates now [] entries rule).length := by
  obtain ⟨hl1, hl2, hpm, hord⟩ :=
    select_to_delete_spec rule.keep_latest (rule_candidates now [] entries rule) hk hdist
  refine ⟨hl1, hl2, hpm, hord, ?_⟩
  have hcand : ((rule_candidates now [] entries rule).map Prod.fst).Nodup :=
    (rule_candidates_map_fst_sublist now [] entries rule).nodup hnodup
  have hpmf : (((select_to_delete rule.keep_latest
      (rule_candidates now [] entries rule)).1 ++
      (select_to_delete rule.keep_latest (rule_candidates now [] entries rule)).2).map
        Prod.fst).Perm ((rule_candidates now [] entries rule).map Prod.fst) :=
    hpm.map Prod.fst
  have hnd : (((select_to_delete rule.keep_latest
      (rule_candidates now [] entries rule)).2).map Prod.fst).Nodup := by
    have := hpmf.nodup_iff.mpr hcand
    rw [List.map_append] at this
    exact this.of_append_right
  have hmem : ∀ p ∈ ((select_to_delete rule.keep_latest
      (rule_candidates now [] entries rule)).2).map Prod.fst,
      p ∈ entries.map Entry.name := by
    intro p hp
    have h1 : p ∈ (((select_to_delete rule.keep_latest
        (rule_candidates now [] entries rule)).1 ++
        (select_to_delete rule.keep_latest
          (rule_candidates now [] entries rule)).2).map Prod.fst) := by
      rw [List.map_append]
      exact List.mem_append_right _ hp
    have h2 := hpmf.mem_iff.mp h1
    exact (rule_candidates_map_fst_sublist now [] entries rule).mem h2
  show (process_rule env now entries ⟨entries.map Entry.name, [], ⟨[], [], 0⟩⟩ rule).res.deleted.length = _
  unfold process_rule
  rw [run_deletes_deleted_count env entries rule.permanent_delete henv _ _ _ _ hnd hmem]
  simp only [List.length_nil, Nat.zero_add]
  exact hl2

/-- Witness for C3 at a concrete input: three expired `.bak` candidates,
`keep_latest = 1`: one is spared, two are deleted. -/
theorem keep_latest_invariant_witness :
    (select_to_delete ruleBakW.keep_latest
      (rule_candidates 600 [] entries3 ruleBakW)).1.length
        = min ruleBakW.keep_latest (rule_candidates 600 [] entries3 ruleBakW).length ∧
    (select_to_delete ruleBakW.keep_latest
      (rule_candidates 600 [] entries3 ruleBakW)).2.length
        = (rule_candidates 600 [] entries3 ruleBakW).length
          - min ruleBakW.keep_latest (rule_candidates 600 [] entries3 ruleBakW).length ∧
    ((select_to_delete ruleBakW.keep_latest
      (rule_candidates 600 [] entries3 ruleBakW)).1 ++
      (select_to_delete ruleBakW.keep_latest
        (rule_candidates 600 [] entries3 ruleBakW)).2).Perm
      (rule_candidates 600 [] entries3 ruleBakW) ∧
    (∀ a ∈ (select_to_delete ruleBakW.keep_latest
        (rule_candidates 600 [] entries3 ruleBakW)).1,
      ∀ b ∈ (select_to_delete ruleBakW.keep_latest
        (rule_candidates 600 [] entries3 ruleBakW)).2, b.2 < a.2) ∧
    (process_folder envAllOk 600 entries3 [ruleBakW]).res.deleted.length =
      (rule_candidates 600 [] entries3 ruleBakW).length
        - min ruleBakW.keep_latest (rule_candidates 600 [] entries3 ruleBakW).length :=
  keep_latest_invariant envAllOk 600 entries3 ruleBakW
    (by decide) ⟨rfl, fun _ => rfl, fun _ => rfl⟩ (by decide) (by decide)

/-- C4: rules are evaluated in list order over a shared `processed_paths`
set — a path already claimed (kept or deleted) by an earlier rule is never
in a later rule's candidate set, and a rule only ever adds to the claimed
set; in the R1/R2 example (R1 `*.bak` with `keep_latest = 1` before R2 `*`
with `keep_latest = 0` over three expired `.bak` files), R1 claims all
three and R2's candidate set is empty. -/
theorem first_claim_wins
    (now : Int) (claimed : List String) (entries : List Entry) (rule : Rule)
    (env : Env) (st : PState) (p : String) (hp : p ∈ claimed) :
    p ∉ (rule_candidates now claimed entries rule).map Prod.fst ∧
    (∀ q ∈ st.claimed, q ∈ (process_rule env now entries st rule).claimed) ∧
    (process_folder envAllOk 600 entries3 [ruleBakW]).claimed =
      ["c.bak", "b.bak", "a.bak"] ∧
    rule_candidates 600 (process_folder envAllOk 600 entries3 [ruleBakW]).claimed
      entries3 ruleAllW = [] := by
  refine ⟨rule_candidates_excludes_claimed now claimed entries rule p hp, ?_, ?_, ?_⟩
  · intro q hq
    show q ∈ (process_rule env now entries st rule).claimed
    simp only [process_rule]
    rw [run_deletes_claimed]
    exact List.mem_append_left _ (List.mem_append_left _ hq)
  · decide
  · decide

/-- Witness for C4 at a concrete input. -/
theorem first_claim_wins_witness :
    "x" ∉ (rule_candidates 600 ["x"] entries3 ruleAllW).map Prod.fst :=
  (first_claim_wins 600 ["x"] entries3 ruleAllW envAllOk
    ⟨[], [], ⟨[], [], 0⟩⟩ "x" (by decide)).1

/-- C10: `total_scanned` is advanced once per (rule, still-unclaimed file)
pair: one rule adds the number of files not yet claimed when it runs; with
a single applicable rule the result equals the number of depth-1 files;
with two applicable rules that claim nothing, every file is counted twice,
so the total (6) differs from the number of distinct files (3). -/
theorem total_scanned_per_rule_semantics
    (env : Env) (now : Int) (entries : List Entry) (st : PState) (rule : Rule) :
    (process_rule env now entries st rule).res.total_scanned =
      st.res.total_scanned +
        (entries.filter (fun e => decide (e.name ∉ st.claimed) && e.isFile)).length ∧
    (∀ (e2 : Env) (n2 : Int) (es : List Entry) (r : Rule),
      (process_folder e2 n2 es [r]).res.total_scanned =
        (es.filter (fun e => e.isFile)).length) ∧
    (process_folder envAllOk 600 entries3 [ruleNoMatch1, ruleNoMatch2]).res.total_scanned
      = 6 ∧
    (entries3.filter (fun e => e.isFile)).length = 3 := by
  refine ⟨?_, ?_, ?_, ?_⟩
  · show (process_rule env now entries st rule).res.total_scanned = _
    unfold process_rule
    rw [run_deletes_total_scanned]
    rfl
  · intro e2 n2 es r
    show (process_rule e2 n2 es ⟨es.map Entry.name, [], ⟨[], [], 0⟩⟩ r).res.total_scanned = _
    simp only [process_rule]
    rw [run_deletes_total_scanned]
    show 0 + rule_scanned [] es = _
    rw [Nat.zero_add]
    unfold rule_scanned
    exact congrArg List.length (List.filter_congr (fun e _ => by simp))
  · decide
  · decide

/-- Witness for C10 at a concrete input: one `*`-rule over the three-file
fixture scans each file once. -/
theorem total_scanned_per_rule_semantics_witness :
    (process_folder envAllOk 600 entries3 [ruleAllW]).res.total_scanned =
      (entries3.filter (fun e => e.isFile)).length :=
  (total_scanned_per_rule_semantics envAllOk 600 entries3
    ⟨[], [], ⟨[], [], 0⟩⟩ ruleAllW).2.1 envAllOk 600 entries3 ruleAllW

/-! ### Lemmas for the version-key round trip -/

theorem matchShape_length : ∀ (fs cs : List Char), matchShape fs cs = true →
    cs.length = fs.length := by
  intro fs
  induction fs with
  | nil =>
    intro cs h
    cases cs with
    | nil => rfl
    | cons c t => exact absurd h (by simp [matchShape])
  | cons f ft ih =>
    intro cs h
    cases cs with
    | nil => exact absurd h (by simp [matchShape])
    | cons c t =>
      have ht : matchShape ft t = true := by
        simp only [matchShape, Bool.and_eq_true] at h
        exact h.2
      simp [ih t ht]

theorem matchShape_chars : ∀ (fs cs : List Char), matchShape fs cs = true →
    ∀ c ∈ cs, ∃ f ∈ fs, (f = 'd' ∧ isAsciiDigit c = true) ∨ f = c := by
  intro fs
  induction fs with
  | nil =>
    intro cs h c hc
    cases cs with
    | nil => cases hc
    | cons x t => exact absurd h (by simp [matchShape])
  | cons f ft ih =>
    intro cs h c hc
    cases cs with
    | nil => cases hc
    | cons x t =>
      simp only [matchShape, Bool.and_eq_true] at h
      cases hc with
      | head =>
        refine ⟨f, List.mem_cons_self f ft, ?_⟩
        by_cases hf : f = 'd'
        · rw [if_pos hf] at h
          exact Or.inl ⟨hf, h.1⟩
        · rw [if_neg hf] at h
          exact Or.inr (beq_iff_eq.mp h.1)
      | tail _ hmem =>
        obtain ⟨g, hg, hgc⟩ := ih t h.2 c hmem
        exact ⟨g, List.mem_cons_of_mem f hg, hgc⟩

theorem matchShape_ts_no_backslash (l : List Char) (h : matchShape tsFormat l = true) :
    '\\' ∉ l := by
  intro hmem
  obtain ⟨f, hf, hfc⟩ := matchShape_chars tsFormat l h '\\' hmem
  rcases hfc with ⟨_, hd⟩ | heq
  · exact absurd hd (by decide)
  · subst heq
    exact absurd hf (by decide)

theorem no_backslash_replace_id (l : List Char) (h : '\\' ∉ l) :
    l.map (fun c => if c = '\\' then '/' else c) = l := by
  have : ∀ c ∈ l, (if c = '\\' then '/' else c) = id c := by
    intro c hc
    have : c ≠ '\\' := fun he => h (he ▸ hc)
    simp [this]
  rw [List.map_congr_left this, List.map_id]

theorem extract_version_l_of_build (folder ts rest : List Char)
    (hshape : matchShape tsFormat ts = true) :
    extract_version_l folder (folder ++ '_' :: (ts ++ '/' :: rest)) = some ts := by
  have hlen : ts.length = 16 := matchShape_length tsFormat ts hshape
  simp only [extract_version_l]
  rw [show folder ++ '_' :: (ts ++ '/' :: rest)
      = (folder ++ ['_']) ++ (ts ++ '/' :: rest) by simp]
  rw [if_pos (List.isPrefixOf_iff_prefix.mpr ⟨ts ++ '/' :: rest, rfl⟩)]
  rw [List.drop_left]
  rw [show (16 : Nat) = ts.length from hlen.symm]
  rw [List.take_left, List.drop_left]
  rw [if_pos hshape]
  rfl

/-- C6: the versioned S3 key is
`folderName_{timestamp}/relativePath` with backslashes normalised to
forward slashes, and the rotator's anchored regex recovers exactly the
timestamp from such a key (round trip), including on the spec's concrete
example. -/
theorem version_key_round_trip (folder rel ts : String)
    (hshape : matchShape tsFormat ts.toList = true)
    (hf : '\\' ∉ folder.toList) :
    build_key folder rel ts true =
      folder ++ "_" ++ ts ++ "/" ++ replace_backslash rel ∧
    extract_version folder (build_key folder rel ts true) = some ts ∧
    build_key "backups" "a/b.txt" "2026-01-16_14-30" true =
      "backups_2026-01-16_14-30/a/b.txt" ∧
    extract_version "backups" "backups_2026-01-16_14-30/a/b.txt" =
      some "2026-01-16_14-30" := by
  have hts : '\\' ∉ ts.toList := matchShape_ts_no_backslash ts.toList hshape
  have hdata : (build_key folder rel ts true).data
      = folder.data ++ '_' :: (ts.data ++ '/' :: (replace_backslash rel).data) := by
    unfold build_key replace_backslash
    rw [if_pos rfl]
    show List.map _ (folder ++ "_" ++ ts ++ "/" ++ rel).data = _
    rw [String.data_append, String.data_append, String.data_append, String.data_append]
    rw [List.map_append, List.map_append, List.map_append, List.map_append]
    rw [no_backslash_replace_id folder.data hf, no_backslash_replace_id ts.data hts]
    simp
  refine ⟨?_, ?_, by decide, by decide⟩
  · apply congrArg String.mk
    show (build_key folder rel ts true).data
        = (folder ++ "_" ++ ts ++ "/" ++ replace_backslash rel).data
    rw [hdata]
    rw [String.data_append, String.data_append, String.data_append, String.data_append]
    simp
  · unfold extract_version
    show (extract_version_l folder.data (build_key folder rel ts true).data).map String.mk
        = some ts
    rw [hdata]
    rw [extract_version_l_of_build folder.data ts.data _ hshape]
    rfl

/-- Witness for C6 at a concrete input: the spec's example key. -/
theorem version_key_round_trip_witness :
    extract_version "backups" (build_key "backups" "a/b.txt" "2026-01-16_14-30" true) =
      some "2026-01-16_14-30" :=
  (version_key_round_trip "backups" "a/b.txt" "2026-01-16_14-30"
    (by decide) (by decide)).2.1

/-! ### Lemmas for version rotation -/

theorem lexLt_asymm {a b : List Char} (h : lexLt a b = true) : lexLt b a = false := by
  cases hba : lexLt b a with
  | false => rfl
  | true => exact absurd (lexLt_trans h hba) (by simp [lexLt_irrefl])

theorem mem_dedup_first_aux :
    ∀ (l seen : List String) (a : String),
      a ∈ dedup_first_aux l seen ↔ a ∈ l ∧ a ∉ seen := by
  intro l
  induction l with
  | nil => intro seen a; simp [dedup_first_aux]
  | cons x xs ih =>
    intro seen a
    unfold dedup_first_aux
    by_cases hx : x ∈ seen
    · rw [if_pos hx]
      rw [ih seen a]
      constructor
      · rintro ⟨h1, h2⟩
        exact ⟨List.mem_cons_of_mem x h1, h2⟩
      · rintro ⟨h1, h2⟩
        cases h1 with
        | head => exact absurd hx h2
        | tail _ h => exact ⟨h, h2⟩
    · rw [if_neg hx]
      constructor
      · intro h
        cases h with
        | head => exact ⟨List.mem_cons_self x xs, hx⟩
        | tail _ h =>
          obtain ⟨h1, h2⟩ := (ih (x :: seen) a).mp h
          have ha : a ∉ seen := fun hs => h2 (List.mem_cons_of_mem x hs)
          exact ⟨List.mem_cons_of_mem x h1, ha⟩
      · rintro ⟨h1, h2⟩
        by_cases hax : a = x
        · subst hax
          exact List.mem_cons_self a _
        · cases h1 with
          | head => exact absurd rfl hax
          | tail _ h =>
            refine List.mem_cons_of_mem x ((ih (x :: seen) a).mpr ⟨h, ?_⟩)
            intro hs
            cases hs with
            | head => exact hax rfl
            | tail _ hs2 => exact h2 hs2

theorem mem_dedup_first (l : List String) (a : String) :
    a ∈ dedup_first l ↔ a ∈ l := by
  unfold dedup_first
  rw [mem_dedup_first_aux]
  simp

theorem nodup_dedup_first_aux :
    ∀ (l seen : List String), (dedup_first_aux l seen).Nodup := by
  intro l
  induction l with
  | nil => intro seen; exact List.nodup_nil
  | cons x xs ih =>
    intro seen
    unfold dedup_first_aux
    by_cases hx : x ∈ seen
    · rw [if_pos hx]
      exact ih seen
    · rw [if_neg hx]
      rw [List.nodup_cons]
      refine ⟨?_, ih (x :: seen)⟩
      intro hmem
      exact ((mem_dedup_first_aux xs (x :: seen) x).mp hmem).2 (List.mem_cons_self x seen)

theorem nodup_dedup_first (l : List String) : (dedup_first l).Nodup :=
  nodup_dedup_first_aux l []

theorem mem_select_go (mv ma now : Int) :
    ∀ (l : List String) (k : Nat) (ts : String),
      ts ∈ select_go mv ma now k l ↔
        ∃ i, ∃ h : i < l.length, l.get ⟨i, h⟩ = ts ∧
          version_selected mv ma now (k + i) ts = true := by
  intro l
  induction l with
  | nil => intro k ts; simp [select_go]
  | cons a rest ih =>
    intro k ts
    unfold select_go
    rw [List.mem_append]
    constructor
    · rintro (h | h)
      · by_cases hsel : version_selected mv ma now k a = true
        · rw [if_pos hsel] at h
          have hta : ts = a := by simpa using h
          subst hta
          exact ⟨0, by simp, rfl, hsel⟩
        · rw [if_neg hsel] at h
          simp at h
      · obtain ⟨i, hi, hget, hs⟩ := (ih (k + 1) ts).mp h
        refine ⟨i + 1, by simpa using Nat.succ_lt_succ hi, hget, ?_⟩
        rw [show k + (i + 1) = k + 1 + i by omega]
        exact hs
    · rintro ⟨i, hi, hget, hs⟩
      cases i with
      | zero =>
        left
        have hta : a = ts := hget
        subst hta
        rw [Nat.add_zero] at hs
        rw [if_pos hs]
        exact List.mem_cons_self a []
      | succ j =>
        right
        have hj : j < rest.length := Nat.lt_of_succ_lt_succ hi
        refine (ih (k + 1) ts).mpr ⟨j, hj, hget, ?_⟩
        rw [show k + 1 + j = k + (j + 1) by omega]
        exact hs

theorem strict_desc_rank :
    ∀ (l : List String),
      l.Pairwise (fun a b => lexLt b.toList a.toList = true) →
      ∀ (i : Nat) (h : i < l.length),
        (l.filter (fun t => lexLt (l.get ⟨i, h⟩).toList t.toList)).length = i := by
  intro l
  induction l with
  | nil => intro _ i h; cases h
  | cons a rest ih =>
    intro hpw i h
    rw [List.pairwise_cons] at hpw
    obtain ⟨ha, hrest⟩ := hpw
    cases i with
    | zero =>
      show (List.filter (fun t => lexLt a.toList t.toList) (a :: rest)).length = 0
      rw [List.filter_cons]
      rw [if_neg (by simp [lexLt_irrefl])]
      rw [List.length_eq_zero, List.filter_eq_nil_iff]
      intro t ht
      simp only [Bool.not_eq_true]
      exact lexLt_asymm (ha t ht)
    | succ j =>
      have hj : j < rest.length := Nat.lt_of_succ_lt_succ h
      show (List.filter (fun t => lexLt (rest.get ⟨j, hj⟩).toList t.toList)
          (a :: rest)).length = j + 1
      rw [List.filter_cons]
      rw [if_pos (ha _ (List.get_mem rest j hj))]
      rw [List.length_cons]
      rw [ih hrest j hj]

theorem version_selected_iff (mv ma now : Int) (i : Nat) (ts : String) :
    version_selected mv ma now i ts = true ↔
      ((0 < mv ∧ mv ≤ (i : Int)) ∨
        (¬(0 < mv ∧ mv ≤ (i : Int)) ∧ 0 < ma ∧
          ∃ sec, parse_ts ts = some sec ∧ ma < Int.fdiv (now - sec) 86400)) := by
  unfold version_selected
  by_cases h1 : 0 < mv ∧ mv ≤ (i : Int)
  · rw [if_pos h1]
    simp [h1]
  · rw [if_neg h1]
    by_cases h2 : 0 < ma
    · rw [if_pos h2]
      cases hp : parse_ts ts with
      | none => simp [h1, h2, hp]
      | some sec => simp [h1, h2, hp]
    · rw [if_neg h2]
      simp [h1, h2]

theorem sorted_nodup_strict_desc (l : List String)
    (hs : l.Pairwise tsDesc) (hn : l.Nodup) :
    l.Pairwise (fun a b => lexLt b.toList a.toList = true) := by
  have hand := hs.and hn
  refine hand.imp ?_
  rintro a b ⟨hd, hne⟩
  rcases lexLt_trichotomy b.toList a.toList with h | h | h
  · exact h
  · exact absurd (congrArg String.mk h).symm hne
  · unfold tsDesc at hd
    rw [hd] at h
    exact Bool.noConfusion h

/-- C5: rotation is a no-op when both limits are zero; otherwise an object
is deleted by the rotation iff it belongs to the bucket listing and its
key carries a version timestamp that is selected — selected meaning its
0-indexed rank in the descending timestamp order (= the number of strictly
greater distinct timestamps) reaches `max_versions` (when positive), or,
only when the count rule did not already select it, the age rule applies
(`max_version_age_days > 0`, the timestamp parses, and the age in whole
days strictly exceeds the limit).  All other objects are untouched. -/
theorem rotation_selection_semantics (mv ma now : Int) (folder : String)
    (objects : List String) :
    (mv = 0 ∧ ma = 0 → rotate_folder_versions mv ma now folder objects = []) ∧
    (∀ key, key ∈ rotate_folder_versions mv ma now folder objects ↔
      (key ∈ objects ∧ ∃ ts, extract_version folder key = some ts ∧
        ((0 < mv ∧ mv ≤ (((dedup_first (objects.filterMap (extract_version folder))).filter
            (fun u => lexLt ts.toList u.toList)).length : Int)) ∨
         (¬(0 < mv ∧ mv ≤ (((dedup_first (objects.filterMap
              (extract_version folder))).filter
            (fun u => lexLt ts.toList u.toList)).length : Int)) ∧ 0 < ma ∧
          ∃ sec, parse_ts ts = some sec ∧ ma < Int.fdiv (now - sec) 86400)))) := by
  constructor
  · intro hz
    unfold rotate_folder_versions
    rw [if_pos hz]
  · intro key
    by_cases hz : mv = 0 ∧ ma = 0
    · constructor
      · intro hmem
        unfold rotate_folder_versions at hmem
        rw [if_pos hz] at hmem
        cases hmem
      · rintro ⟨_, ts, _, hsel⟩
        obtain ⟨hz1, hz2⟩ := hz
        rcases hsel with ⟨h1, _⟩ | ⟨_, h2, _⟩
        · omega
        · omega
    · unfold rotate_folder_versions
      rw [if_neg hz]
      by_cases hobj : objects = []
      · rw [if_pos hobj]
        subst hobj
        simp
      · rw [if_neg hobj]
        by_cases hts0 : dedup_first (objects.filterMap (extract_version folder)) = []
        · rw [if_pos hts0]
          constructor
          · intro h
            cases h
          · rintro ⟨hko, ts, hext, _⟩
            have hmem : ts ∈ dedup_first (objects.filterMap (extract_version folder)) :=
              (mem_dedup_first _ ts).mpr (List.mem_filterMap.mpr ⟨key, hko, hext⟩)
            rw [hts0] at hmem
            cases hmem
        · rw [if_neg hts0]
          have hperm : (List.insertionSort tsDesc
              (dedup_first (objects.filterMap (extract_version folder)))).Perm
              (dedup_first (objects.filterMap (extract_version folder))) :=
            List.perm_insertionSort tsDesc _
          have hnodupT : (dedup_first (objects.filterMap (extract_version folder))).Nodup :=
            nodup_dedup_first _
          have hnodupS : (List.insertionSort tsDesc
              (dedup_first (objects.filterMap (extract_version folder)))).Nodup :=
            hperm.nodup_iff.mpr hnodupT
          have hstrict := sorted_nodup_strict_desc _
            (List.sorted_insertionSort tsDesc
              (dedup_first (objects.filterMap (extract_version folder)))) hnodupS
          have hrank : ∀ (i : Nat) (h : i < (List.insertionSort tsDesc
              (dedup_first (objects.filterMap (extract_version folder)))).length),
              (((dedup_first (objects.filterMap (extract_version folder))).filter
                (fun u => lexLt ((List.insertionSort tsDesc
                  (dedup_first (objects.filterMap
                    (extract_version folder)))).get ⟨i, h⟩).toList u.toList)).length) = i := by
            intro i h
            rw [← (hperm.filter _).length_eq]
            exact strict_desc_rank _ hstrict i h
          rw [List.mem_flatMap]
          constructor
          · rintro ⟨ts, hsel, hkey⟩
            rw [List.mem_filter] at hkey
            obtain ⟨hko, hext⟩ := hkey
            rw [decide_eq_true_iff] at hext
            refine ⟨hko, ts, hext, ?_⟩
            obtain ⟨i, hi, hget, hvs⟩ := (mem_select_go mv ma now _ 0 ts).mp hsel
            rw [Nat.zero_add] at hvs
            have hiff := (version_selected_iff mv ma now i ts).mp hvs
            have hr : (((dedup_first (objects.filterMap (extract_version folder))).filter
                (fun u => lexLt ts.toList u.toList)).length) = i := by
              rw [← hget]
              exact hrank i hi
            rw [hr]
            exact hiff
          · rintro ⟨hko, ts, hext, hsel⟩
            have htsmem : ts ∈ dedup_first (objects.filterMap (extract_version folder)) :=
              (mem_dedup_first _ ts).mpr (List.mem_filterMap.mpr ⟨key, hko, hext⟩)
            have hsmem : ts ∈ List.insertionSort tsDesc
                (dedup_first (objects.filterMap (extract_version folder))) :=
              hperm.mem_iff.mpr htsmem
            obtain ⟨⟨i, hi⟩, hget⟩ := List.mem_iff_get.mp hsmem
            refine ⟨ts, ?_, List.mem_filter.mpr ⟨hko, decide_eq_true hext⟩⟩
            refine (mem_select_go mv ma now _ 0 ts).mpr ⟨i, hi, hget, ?_⟩
            rw [Nat.zero_add]
            refine (version_selected_iff mv ma now i ts).mpr ?_
            have hr : (((dedup_first (objects.filterMap (extract_version folder))).filter
                (fun u => lexLt ts.toList u.toList)).length) = i := by
              rw [← hget]
              exact hrank i hi
            rw [hr] at hsel
            exact hsel

/-- Witness for C5 at concrete inputs: both limits zero is a no-op over
the five-version fixture, and with `max_versions = 2` the oldest version's
object is among the issued deletions. -/
theorem rotation_selection_semantics_witness :
    rotate_folder_versions 0 0 0 "db" objs5 = [] ∧
    "db_2026-01-01_00-00/f" ∈ rotate_folder_versions 2 0 0 "db" objs5 :=
  ⟨(rotation_selection_semantics 0 0 0 "db" objs5).1 ⟨rfl, rfl⟩,
   ((rotation_selection_semantics 2 0 0 "db" objs5).2 "db_2026-01-01_00-00/f").mpr
     ⟨by decide, "2026-01-01_00-00", by decide, Or.inl (by decide)⟩⟩
